import Mathlib

/-!
libRaptorQ, `RaptorQ/v1/RaptorQ.hpp`: encoder and decoder sessions.

A shallow embedding of `RaptorQ__v1::Impl::Encoder` and `RaptorQ__v1::Impl::Decoder`.

* Iterators over a caller buffer are positions (`Nat`) into a list of elements; a range
  `[start, end)` is a pair of positions.
* An element of type `T` with `sizeof(T) = W` is the natural number below `256 ^ W` given by
  its bytes, least significant first.
* `uint16_t` counters are reduced modulo `65536` where the source lets them wrap.
* The raw engines, the interleaver and the dense matrix are external to the file; they
  appear as parameters.
-/

namespace RaptorQ

/-! ## External collaborators -/

/-- The dense octet matrix (`DenseMtx`): its shape and its coefficient access. -/
structure DenseMtx where
  rows : Nat
  cols : Nat
  coeff : Nat → Nat → Nat

/-- The default-constructed matrix `DenseMtx()`, of shape 0 x 0. -/
def DenseMtx.empty : DenseMtx := ⟨0, 0, fun _ _ => 0⟩

/-- The coefficient at `(r, c)` after `static_cast<uint8_t>`. -/
def DenseMtx.octet (m : DenseMtx) (r c : Nat) : Nat := m.coeff r c % 256

/-- The row-major byte sequence of a matrix, read as unsigned octets. -/
def DenseMtx.flat (m : DenseMtx) (i : Nat) : Nat := m.octet (i / m.cols) (i % m.cols)

/-- The raw decoder as the session sees it: `ready()` and `get_symbols()`. -/
structure Raw_Decoder where
  is_ready : Bool
  symbols : DenseMtx

/-- Modelled from the spec: `Raw_Decoder::cols()` is not in the sources; the spec names the
value used by `decode_symbol` `symbolBytesPerRow`, the reconstructed matrix's column count. -/
def Raw_Decoder.cols (d : Raw_Decoder) : Nat := d.symbols.cols

/-- Ways a call can fail to return a value. -/
inductive Fault where
  /-- A division or remainder by a zero column count or symbol size. -/
  | division_by_zero
  /-- The output cursor is dereferenced although it is not inside `[start, end)`. -/
  | out_of_range
  /-- The loop never leaves. -/
  | no_return
deriving DecidableEq, Repr

deriving instance DecidableEq for Except

/-! ## Decoder session -/

/-- The decoder's `Report` enumeration. -/
inductive Report where
  | PARTIAL_FROM_BEGINNING
  | PARTIAL_ANY
  | COMPLETE
deriving DecidableEq, Repr

/-- The decoder session: the raw decoder and the report type fixed at construction
(`work` is only handed on to the raw decoder and is left out). -/
structure Decoder where
  dec : Raw_Decoder
  type : Report

/-- The local `symbols` of the decoder constructor, as handed to the raw decoder:
`static_cast<uint16_t> (bytes / symbol_size)`, incremented (as a `uint16_t`) when the
division leaves a remainder. -/
def Decoder.ctor_symbols (bytes symbol_size : Nat) : Except Fault Nat :=
  if symbol_size = 0 then .error .division_by_zero
  else
    let symbols := (bytes / symbol_size) % 65536
    if bytes % symbol_size ≠ 0 then .ok ((symbols + 1) % 65536) else .ok symbols

/-- The decoder constructor; `raw` stands for the external `Raw_Decoder (symbols, symbol_size)`. -/
def Decoder.ctor (raw : Nat → Nat → Raw_Decoder) (bytes symbol_size : Nat) (type : Report) :
    Except Fault Decoder :=
  match Decoder.ctor_symbols bytes symbol_size with
  | .error f => .error f
  | .ok symbols => .ok ⟨raw symbols symbol_size, type⟩

/-- The local variables of the loop of `decode_bytes`, with the output buffer. The cursor
`start` is not among them: no statement of the function assigns it. -/
structure Cursor where
  esi : Nat
  byte : Nat
  offset_al : Nat
  element : Nat
  written : Nat
  out : List Nat
deriving DecidableEq, Repr

/-- One pass through the body of the `while` loop of `decode_bytes` (lines 266-279). -/
def decode_step (m : DenseMtx) (W start : Nat) (s : Cursor) : Cursor :=
  let element := (s.element + m.octet s.esi s.byte * 256 ^ s.offset_al) % 256 ^ W
  let offset_al := s.offset_al + 1
  let s1 : Cursor :=
    if offset_al = W then
      { s with out := s.out.set start element, written := s.written + offset_al,
               offset_al := 0, element := 0 }
    else
      { s with element := element, offset_al := offset_al }
  let byte := (s1.byte + 1) % 65536
  if byte = m.cols then
    { s1 with byte := 0, esi := (s1.esi + 1) % 65536 }
  else
    { s1 with byte := byte }

/-- The `while (start != end && esi < decoded.rows())` loop, run for at most `fuel` passes. -/
def decode_loop (m : DenseMtx) (W start end_ : Nat) : Nat → Cursor → Option Cursor
  | 0, s => if start ≠ end_ ∧ s.esi < m.rows then none else some s
  | fuel + 1, s =>
    if start ≠ end_ ∧ s.esi < m.rows then decode_loop m W start end_ fuel (decode_step m W start s)
    else some s

/-- The result of a call that writes into `[start, end)`: the count returned, the buffer
and the cursor (passed by reference) as the call leaves them. -/
structure Written where
  count : Nat
  out : List Nat
  start : Nat
deriving DecidableEq, Repr

/-- `Decoder::decode_bytes (start, end, from_byte, skip)` for an output element type of `W`
bytes. `out` is the memory the output iterators range over, `start` and `end_` positions
in it. The loop is given `rows * cols + 1` passes, which it exhausts only when it never
leaves. `offset_al` and `written` stay far below `2 ^ 64`. -/
def Decoder.decode_bytes (d : Decoder) (W : Nat) (out : List Nat) (start end_ : Nat)
    (from_byte skip : Nat) : Except Fault Written :=
  if !d.dec.is_ready then .ok ⟨0, out, start⟩
  else
    let decoded := d.dec.symbols
    if decoded.cols = 0 then .error .division_by_zero
    else
      let esi := (from_byte / decoded.cols) % 65536
      let byte := (from_byte % decoded.cols) % 65536
      match (if start < end_ then out.get? start else none) with
      | none => .error .out_of_range
      | some element =>
        match decode_loop decoded W start end_ (decoded.rows * decoded.cols + 1)
            ⟨esi, byte, skip, element, 0, out⟩ with
        | none => .error .no_return
        | some s =>
          if start ≠ end_ ∧ s.offset_al ≠ 0 then
            .ok ⟨s.written + s.offset_al, s.out.set start s.element, start⟩
          else .ok ⟨s.written, s.out, start⟩

/-- The pair returned by `decode_aligned`, with the buffer and cursor after the call. -/
structure Aligned where
  it_written : Nat
  last_iterator : Nat
  out : List Nat
  start : Nat
deriving DecidableEq, Repr

/-- `Decoder::decode_aligned`. -/
def Decoder.decode_aligned (d : Decoder) (W : Nat) (out : List Nat) (start end_ : Nat)
    (from_byte skip : Nat) : Except Fault Aligned :=
  match d.decode_bytes W out start end_ from_byte skip with
  | .error f => .error f
  | .ok r =>
    if W = 0 then .error .division_by_zero
    else .ok ⟨(r.count + skip) / W, (r.count + skip) % W, r.out, r.start⟩

/-- `Decoder::decode_symbol`. -/
def Decoder.decode_symbol (d : Decoder) (W : Nat) (out : List Nat) (start end_ : Nat)
    (esi skip : Nat) : Except Fault Written :=
  if !d.dec.is_ready then .ok ⟨0, out, start⟩
  else
    let esi_byte := esi * d.dec.cols
    d.decode_bytes W out start end_ esi_byte skip

/-! ## Encoder session -/

/-- The interleaving adapter, known only through the arguments of its constructor:
the data range, the symbol size, the maximum size and the final symbol size. -/
structure Interleaver where
  data : List Nat
  symbol_size : Nat
  max_size : Nat
  final_symbol_size : Nat
deriving DecidableEq, Repr

/-- The constant `SIZE_MAX` of a 64-bit target. -/
def SIZE_MAX : Nat := 2 ^ 64 - 1

/-- The raw encoder over an engine state `E`: the two constructors used by the session,
`ready()`, `generate_symbols (&work)`, `get_precomputed (&work)`,
`generate_symbols (precomputed, interleaver)` and `Enc (id, output, end)`. -/
structure Raw_Encoder (E : Type) where
  of_symbols : Nat → E
  of_interleaver : Interleaver → Nat → E
  ready : E → Bool
  generate_symbols : E → Bool × E
  get_precomputed : E → DenseMtx × E
  generate_symbols_from : E → DenseMtx → Interleaver → E
  Enc : E → Nat → List Nat → Nat → Nat → Written × E

/-- The encoder's `Data_State` enumeration. -/
inductive Data_State where
  | NEED_DATA
  | FULL
  | INIT
deriving DecidableEq, Repr

/-- The data members of the encoder session (`work` is a constant and is left out). -/
structure Encoder (E : Type) where
  interleaver : Option Interleaver
  encoder : E
  precomputed : DenseMtx
  data : List Nat
  _symbol_size : Nat
  _symbols : Nat
  state : Data_State

/-- `Encoder (symbols, symbol_size)`, the constructor "used for precomputation". -/
def Encoder.ctor_symbols {E : Type} (api : Raw_Encoder E) (symbols symbol_size : Nat) :
    Encoder E :=
  { interleaver := none, encoder := api.of_symbols symbols, precomputed := DenseMtx.empty,
    data := [], _symbol_size := symbol_size, _symbols := symbols, state := .INIT }

/-- `Encoder (data_from, data_to, symbol_size)`, the constructor "with data at the
beginning". The interleaver is built before `_symbol_size` is initialised and receives
whatever value that member holds then, here `garbage`. -/
def Encoder.ctor_data {E : Type} (api : Raw_Encoder E) (range : List Nat)
    (symbol_size garbage : Nat) : Encoder E :=
  let il : Interleaver := ⟨range, garbage, SIZE_MAX, symbol_size⟩
  { interleaver := some il, encoder := api.of_interleaver il 0, precomputed := DenseMtx.empty,
    data := [], _symbol_size := 0, _symbols := 0, state := .NEED_DATA }

/-- The right-hand side `_symbols * _symbol_size` of the comparison in `add_data`, as the
`size_t` it is compared as. Both `uint16_t` operands are promoted to `int`; a product of
`2 ^ 31` or more does not fit, and the model then takes the wrapped two's-complement value,
sign-extended by the conversion to `size_t`. -/
def capacity (_symbols _symbol_size : Nat) : Nat :=
  if _symbols * _symbol_size < 2 ^ 31 then _symbols * _symbol_size
  else _symbols * _symbol_size + (2 ^ 64 - 2 ^ 32)

/-- The `while (from != to)` loop of `add_data`, for elements of `W` bytes; the state is
`data`, `written` and `state`, and the first list holds the values that the iterator
`from` still has to take. Line 160 pushes `from`, the iterator itself and not the element
it points to: what arrives in `data` is `conv from`, the iterator converted to the element
type `T`. The product `data.size() * sizeof (T)` is the byte size of a live vector and
stays below `2 ^ 64`. -/
def add_data_loop (W cap : Nat) (conv : Nat → Nat) : List Nat → List Nat → Nat → Data_State →
    List Nat × Nat × Data_State
  | [], data, written, state => (data, written, state)
  | it :: rest, data, written, state =>
    if data.length * W ≥ cap then (data, written, .FULL)
    else add_data_loop W cap conv rest (data ++ [conv it]) (written + 1) state

/-- `Encoder::add_data (from, to)` for input elements of `W` bytes: the count returned and
the session after the call. `range` lists the elements of `[from, to)`, which the function
never reads; the iterator `from` runs through the positions `0, 1, ...` of the range, and
`conv` is the implicit conversion from the iterator type to the element type. -/
def Encoder.add_data {E : Type} (W : Nat) (conv : Nat → Nat) (s : Encoder E)
    (range : List Nat) : Nat × Encoder E :=
  if s.state ≠ .NEED_DATA then (0, s)
  else
    let r := add_data_loop W (capacity s._symbols s._symbol_size) conv
      (List.range range.length) s.data 0 s.state
    (r.2.1, { s with data := r.1, state := r.2.2 })

/-- `Encoder::compute_sync ()`: the value returned and the session after the call. -/
def Encoder.compute_sync {E : Type} (api : Raw_Encoder E) (s : Encoder E) : Bool × Encoder E :=
  if s.state = .INIT then
    let r := api.generate_symbols s.encoder
    (r.1, { s with encoder := r.2 })
  else
    let r := api.get_precomputed s.encoder
    (r.1.rows != 0, { s with precomputed := r.1, encoder := r.2 })

/-- The final `encoder.Enc (id, output, end)` of `encode`. -/
def Encoder.emit {E : Type} (api : Raw_Encoder E) (s : Encoder E) (out : List Nat)
    (start end_ id : Nat) : Written × Encoder E :=
  let r := api.Enc s.encoder id out start end_
  (r.1, { s with encoder := r.2 })

/-- `Encoder::encode (output, end, id)`: count, output buffer and cursor, and the session
after the call. -/
def Encoder.encode {E : Type} (api : Raw_Encoder E) (s : Encoder E) (out : List Nat)
    (start end_ id : Nat) : Written × Encoder E :=
  match s.state with
  | .INIT =>
    if !api.ready s.encoder then (⟨0, out, start⟩, s)
    else s.emit api out start end_ id
  | .NEED_DATA => (⟨0, out, start⟩, s)
  | .FULL =>
    if !api.ready s.encoder then
      if s.precomputed.rows = 0 then (⟨0, out, start⟩, s)
      else
        let il : Interleaver := ⟨s.data, s._symbol_size, SIZE_MAX, s._symbol_size⟩
        let s1 : Encoder E :=
          { s with interleaver := some il,
                   encoder := api.generate_symbols_from s.encoder s.precomputed il,
                   precomputed := DenseMtx.empty }
        s1.emit api out start end_ id
    else s.emit api out start end_ id

/-- The calls a caller may make on an encoder session. -/
inductive Call where
  | add_data (range : List Nat)
  | compute_sync
  | encode (out : List Nat) (start end_ id : Nat)

/-- The session after one call; `W` is the byte size of the input element type and `conv`
the conversion from the input iterator type to it. -/
def Encoder.call {E : Type} (api : Raw_Encoder E) (W : Nat) (conv : Nat → Nat)
    (s : Encoder E) : Call → Encoder E
  | .add_data range => (s.add_data W conv range).2
  | .compute_sync => (s.compute_sync api).2
  | .encode out start end_ id => (s.encode api out start end_ id).2

/-- The session after a sequence of calls. -/
def Encoder.calls {E : Type} (api : Raw_Encoder E) (W : Nat) (conv : Nat → Nat)
    (s : Encoder E) (cs : List Call) : Encoder E :=
  cs.foldl (Encoder.call api W conv) s

/-- The session after a sequence of `add_data` calls on ranges of `W`-byte elements, with
the sum of the counts returned. -/
def Encoder.add_all {E : Type} (W : Nat) (conv : Nat → Nat) :
    Encoder E → List (List Nat) → Nat × Encoder E
  | s, [] => (0, s)
  | s, range :: rest =>
    let r := s.add_data W conv range
    let t := Encoder.add_all W conv r.2 rest
    (r.1 + t.1, t.2)

/-! ## Scenario data -/

/-- The 4 x 8 matrix holding the bytes `0..31` in row-major order. -/
def mtx_4x8 : DenseMtx := ⟨4, 8, fun r c => 8 * r + c⟩

/-- A ready decoder over `mtx_4x8`. -/
def dec_4x8 : Decoder := ⟨⟨true, mtx_4x8⟩, .COMPLETE⟩

/-- The 1 x 2 matrix holding the bytes `1, 2`. -/
def mtx_1x2 : DenseMtx := ⟨1, 2, fun _ c => c + 1⟩

/-- A ready decoder over `mtx_1x2`. -/
def dec_1x2 : Decoder := ⟨⟨true, mtx_1x2⟩, .COMPLETE⟩

/-- A ready decoder over the 1 x 1 matrix holding the byte 5. -/
def dec_1x1 : Decoder := ⟨⟨true, ⟨1, 1, fun _ _ => 5⟩⟩, .COMPLETE⟩

/-- A decoder whose engine is not ready. -/
def dec_idle : Decoder := ⟨⟨false, mtx_4x8⟩, .COMPLETE⟩

/-- The conversion of a non-null `bool*` to `bool`, the conversion under which
`data.push_back (from)` is accepted for a pointer range: every iterator becomes `true`. -/
def ptr_to_bool : Nat → Nat := fun _ => 1

/-- The quotient `ceil (bytes / symbol_size)` of the spec. -/
def ceil_div (bytes symbol_size : Nat) : Nat := (bytes + symbol_size - 1) / symbol_size

/-- A small raw encoder for concrete runs: the engine state is its readiness, every
computation succeeds, the precomputed matrix is 1 x 1, and `Enc` writes the symbol id
into one element when there is room. -/
def toy_engine : Raw_Encoder Bool where
  of_symbols := fun _ => false
  of_interleaver := fun _ _ => false
  ready := fun e => e
  generate_symbols := fun _ => (true, true)
  get_precomputed := fun e => (⟨1, 1, fun _ _ => 0⟩, e)
  generate_symbols_from := fun _ _ _ => true
  Enc := fun e id out start end_ =>
    if start < end_ then (⟨1, out.set start id, start + 1⟩, e) else (⟨0, out, start⟩, e)

/-- A session still taking data, with room for 2 symbols of 2 bytes. -/
def enc_2x2 : Encoder Bool :=
  { interleaver := none, encoder := false, precomputed := DenseMtx.empty, data := [],
    _symbol_size := 2, _symbols := 2, state := .NEED_DATA }

/-- A session built from a data range of three elements with symbol size 2. -/
def enc_from_data : Encoder Bool := Encoder.ctor_data toy_engine [5, 6, 7] 2 0

/-- A session built for 10 symbols of 4 bytes. -/
def enc_10x4 : Encoder Bool := Encoder.ctor_symbols toy_engine 10 4

/-- A full session whose engine is not ready and that holds no precomputed matrix. -/
def enc_full : Encoder Bool :=
  { interleaver := none, encoder := false, precomputed := DenseMtx.empty, data := [1, 2, 3, 4],
    _symbol_size := 2, _symbols := 2, state := .FULL }

/-- The two-call run of the resumability property, in the spec's words: a first call from
byte 0 over the output elements that hold the bytes `[0, k)`, then a second call resuming at
`from_byte = k`, with `skip` the offset reported by the first call, at the cursor the first
call left, up to the end `end_` of the whole range. -/
def Decoder.decode_resumed (d : Decoder) (W : Nat) (out : List Nat) (end_ k : Nat) :
    Except Fault (List Nat) :=
  match d.decode_aligned W out 0 ((k + W - 1) / W) 0 0 with
  | .error f => .error f
  | .ok a =>
    match d.decode_bytes W a.out a.start end_ k a.last_iterator with
    | .error f => .error f
    | .ok r => .ok r.out

/-- The single-call run `decode_bytes (start, end, 0, 0)` over the whole range. -/
def Decoder.decode_whole (d : Decoder) (W : Nat) (out : List Nat) (end_ : Nat) :
    Except Fault (List Nat) :=
  match d.decode_bytes W out 0 end_ 0 0 with
  | .error f => .error f
  | .ok r => .ok r.out

/-- The matrix coordinates `(esi, byte)` read by the passes of the loop of `decode_bytes`
(line 266), in the order of the passes. -/
def decode_reads (m : DenseMtx) (W start end_ : Nat) : Nat → Cursor → List (Nat × Nat)
  | 0, _ => []
  | fuel + 1, s =>
    if start ≠ end_ ∧ s.esi < m.rows then
      (s.esi, s.byte) :: decode_reads m W start end_ fuel (decode_step m W start s)
    else []

/-! ## Symbol iterators (`RaptorQ_Iterators.hpp`) -/

/-- `It::Encoder::Symbol_Iterator`: the pointer to the owning session (`none` for
`nullptr`, else its address) and the symbol index, a `uint32_t`. -/
structure It.Encoder.Symbol_Iterator where
  _enc : Option Nat
  _esi : Nat
deriving DecidableEq, Repr

/-- `It::Encoder::Symbol_Iterator::operator==`. -/
def It.Encoder.Symbol_Iterator.operator_eq (self it : It.Encoder.Symbol_Iterator) : Bool :=
  it._esi == self._esi

/-- `It::Encoder::Symbol_Iterator::operator!=`. -/
def It.Encoder.Symbol_Iterator.operator_ne (self it : It.Encoder.Symbol_Iterator) : Bool :=
  it._esi != self._esi

/-- `It::Decoder::Symbol_Iterator`: the pointer to the owning session and the symbol
index, a `uint16_t`. -/
structure It.Decoder.Symbol_Iterator where
  _dec : Option Nat
  _esi : Nat
deriving DecidableEq, Repr

/-- `It::Decoder::Symbol_Iterator::operator==`. -/
def It.Decoder.Symbol_Iterator.operator_eq (self it : It.Decoder.Symbol_Iterator) : Bool :=
  it._esi == self._esi

/-- `It::Decoder::Symbol_Iterator::operator!=`. -/
def It.Decoder.Symbol_Iterator.operator_ne (self it : It.Decoder.Symbol_Iterator) : Bool :=
  it._esi != self._esi

/-! ## Byte reassembly -/

/-- The column counter after one pass of the loop. -/
theorem decode_step_byte (m : DenseMtx) (W start : Nat) (s : Cursor) :
    (decode_step m W start s).byte
      = if (s.byte + 1) % 65536 = m.cols then 0 else (s.byte + 1) % 65536 := by
  simp only [decode_step]
  split_ifs <;> rfl

/-- The symbol counter after one pass of the loop. -/
theorem decode_step_esi (m : DenseMtx) (W start : Nat) (s : Cursor) :
    (decode_step m W start s).esi
      = if (s.byte + 1) % 65536 = m.cols then (s.esi + 1) % 65536 else s.esi := by
  simp only [decode_step]
  split_ifs <;> rfl

/-- The loop makes a pass while its condition holds. -/
theorem decode_loop_pass (m : DenseMtx) (W start end_ fuel : Nat) (s : Cursor)
    (hc : start ≠ end_ ∧ s.esi < m.rows) :
    decode_loop m W start end_ (fuel + 1) s
      = decode_loop m W start end_ fuel (decode_step m W start s) := by
  rw [decode_loop, if_pos hc]

/-- The loop has not left when its passes are used up and its condition holds. -/
theorem decode_loop_exhausted (m : DenseMtx) (W start end_ : Nat) (s : Cursor)
    (hc : start ≠ end_ ∧ s.esi < m.rows) :
    decode_loop m W start end_ 0 s = none := by
  rw [decode_loop, if_pos hc]

/-- The loop leaves at once when its condition is false. -/
theorem decode_loop_leave (m : DenseMtx) (W start end_ fuel : Nat) (s : Cursor)
    (hc : ¬ (start ≠ end_ ∧ s.esi < m.rows)) :
    decode_loop m W start end_ fuel s = some s := by
  cases fuel <;> rw [decode_loop, if_neg hc]

/-- A property kept by every pass of the loop holds when the loop leaves, and the loop
condition is then false. -/
theorem decode_loop_invariant (m : DenseMtx) (W start end_ : Nat) (P : Cursor → Prop)
    (hstep : ∀ s, P s → start ≠ end_ → s.esi < m.rows → P (decode_step m W start s)) :
    ∀ (fuel : Nat) (s r : Cursor), P s → decode_loop m W start end_ fuel s = some r →
      P r ∧ ¬ (start ≠ end_ ∧ r.esi < m.rows) := by
  intro fuel
  induction fuel with
  | zero =>
    intro s r hP h
    by_cases hc : start ≠ end_ ∧ s.esi < m.rows
    · rw [decode_loop_exhausted m W start end_ s hc] at h
      exact Option.noConfusion h
    · rw [decode_loop_leave m W start end_ 0 s hc] at h
      cases h
      exact ⟨hP, hc⟩
  | succ fuel ih =>
    intro s r hP h
    by_cases hc : start ≠ end_ ∧ s.esi < m.rows
    · rw [decode_loop_pass m W start end_ fuel s hc] at h
      exact ih _ r (hstep s hP hc.1 hc.2) h
    · rw [decode_loop_leave m W start end_ _ s hc] at h
      cases h
      exact ⟨hP, hc⟩

/-- Over a matrix whose shape fits the 16-bit counters the loop leaves: `n` passes are
enough when `n` covers the bytes from `(esi, byte)` to the end of the matrix. -/
theorem decode_loop_returns (m : DenseMtx) (W start end_ : Nat) (hC : m.cols < 65536)
    (hR : m.rows < 65536) :
    ∀ (n : Nat) (s : Cursor), s.byte < m.cols → s.esi ≤ m.rows →
      (m.rows - s.esi) * m.cols ≤ n + s.byte →
      ∀ fuel, n ≤ fuel → ∃ r, decode_loop m W start end_ fuel s = some r := by
  intro n
  induction n with
  | zero =>
    intro s hb he hn fuel _
    by_cases hc : start ≠ end_ ∧ s.esi < m.rows
    · exfalso
      have h1 : 1 ≤ m.rows - s.esi := by omega
      have h2 : m.cols ≤ (m.rows - s.esi) * m.cols := Nat.le_mul_of_pos_left _ h1
      omega
    · exact ⟨s, decode_loop_leave m W start end_ fuel s hc⟩
  | succ n ih =>
    intro s hb he hn fuel hfuel
    by_cases hc : start ≠ end_ ∧ s.esi < m.rows
    · obtain ⟨fuel, rfl⟩ : ∃ f, fuel = f + 1 := ⟨fuel - 1, by omega⟩
      rw [decode_loop_pass m W start end_ fuel s hc]
      have hmod : (s.byte + 1) % 65536 = s.byte + 1 := Nat.mod_eq_of_lt (by omega)
      apply ih _ _ _ _ fuel (by omega)
      · rw [decode_step_byte, hmod]
        split_ifs <;> omega
      · rw [decode_step_esi, hmod]
        split_ifs
        · rw [Nat.mod_eq_of_lt (by omega)]; omega
        · exact he
      · rw [decode_step_byte, decode_step_esi, hmod]
        split_ifs with hwrap
        · rw [Nat.mod_eq_of_lt (by omega)]
          have hsplit : m.rows - s.esi = (m.rows - (s.esi + 1)) + 1 := by omega
          rw [hsplit, Nat.succ_mul] at hn
          omega
        · omega
    · exact ⟨s, decode_loop_leave m W start end_ fuel s hc⟩

/-- When every pass keeps the loop condition true, no amount of passes lets the loop
leave. -/
theorem decode_loop_never (m : DenseMtx) (W start end_ : Nat) (I : Cursor → Prop)
    (hI : ∀ s, I s → (start ≠ end_ ∧ s.esi < m.rows) ∧ I (decode_step m W start s)) :
    ∀ (fuel : Nat) (s : Cursor), I s → decode_loop m W start end_ fuel s = none := by
  intro fuel
  induction fuel with
  | zero => intro s hs; exact decode_loop_exhausted m W start end_ s (hI s hs).1
  | succ fuel ih =>
    intro s hs
    rw [decode_loop_pass m W start end_ fuel s (hI s hs).1]
    exact ih _ (hI s hs).2

/-- The passes granted by `decode_bytes` are enough: started as `decode_bytes` starts it
(`esi` a 16-bit value, `byte` a column), the loop that has not left after
`rows * cols + 1` passes never leaves. -/
theorem decode_loop_fuel_adequate (m : DenseMtx) (W start end_ : Nat) (s : Cursor)
    (hesi : s.esi < 65536) (hbyte : s.byte < m.cols)
    (h : decode_loop m W start end_ (m.rows * m.cols + 1) s = none) :
    ∀ fuel, decode_loop m W start end_ fuel s = none := by
  by_cases hc : start ≠ end_ ∧ s.esi < m.rows
  · by_cases hC : m.cols < 65536
    · by_cases hR : m.rows < 65536
      · exfalso
        have hle : (m.rows - s.esi) * m.cols ≤ m.rows * m.cols :=
          Nat.mul_le_mul_right _ (Nat.sub_le _ _)
        obtain ⟨r, hr⟩ := decode_loop_returns m W start end_ hC hR (m.rows * m.cols) s hbyte
          (by omega) (by omega) (m.rows * m.cols + 1) (by omega)
        rw [hr] at h
        exact Option.noConfusion h
      · intro fuel
        apply decode_loop_never m W start end_ (fun t => start ≠ end_ ∧ t.esi < 65536) _ fuel s
          ⟨hc.1, hesi⟩
        intro t ht
        refine ⟨⟨ht.1, by omega⟩, ht.1, ?_⟩
        rw [decode_step_esi]
        split_ifs
        · exact Nat.mod_lt _ (by decide)
        · exact ht.2
    · intro fuel
      apply decode_loop_never m W start end_ (fun t => start ≠ end_ ∧ t.esi < m.rows) _ fuel s hc
      intro t ht
      refine ⟨ht, ht.1, ?_⟩
      have hlt : (t.byte + 1) % 65536 < 65536 := Nat.mod_lt _ (by decide)
      rw [decode_step_esi, if_neg (by omega)]
      exact ht.2
  · exfalso
    rw [decode_loop_leave m W start end_ _ s hc] at h
    exact Option.noConfusion h

/-- One pass of the loop folds one byte: `written + offset_al` grows by one, `offset_al`
stays below `W`, and the buffer changes at most at the cursor. -/
theorem decode_step_tally (m : DenseMtx) (W start : Nat) (s : Cursor) (hW : s.offset_al < W) :
    (decode_step m W start s).written + (decode_step m W start s).offset_al
        = s.written + s.offset_al + 1
      ∧ (decode_step m W start s).offset_al < W
      ∧ ((decode_step m W start s).out = s.out
          ∨ ∃ v, (decode_step m W start s).out = s.out.set start v) := by
  simp only [decode_step]
  by_cases hfull : s.offset_al + 1 = W
  · simp only [hfull, if_true]
    refine ⟨?_, ?_, ?_⟩
    · split_ifs <;> simp <;> omega
    · split_ifs <;> simp <;> omega
    · right
      split_ifs <;> exact ⟨_, rfl⟩
  · simp only [hfull, if_false]
    refine ⟨?_, ?_, ?_⟩
    · split_ifs <;> simp <;> omega
    · split_ifs <;> simp <;> omega
    · left
      split_ifs <;> rfl

/-- What the loop of `decode_bytes` comes to over a matrix whose shape fits the 16-bit
counters, started inside the matrix with `offset_al < W`: it leaves, having folded every
byte from its starting point to the end of the matrix, and has changed the buffer at most
at the position of the cursor. -/
theorem decode_loop_result (m : DenseMtx) (W start end_ : Nat) (hC : m.cols < 65536)
    (hR : m.rows < 65536) (hse : start ≠ end_) (s : Cursor) (hb : s.byte < m.cols)
    (he : s.esi < m.rows) (ho : s.offset_al < W) :
    ∃ r, decode_loop m W start end_ (m.rows * m.cols + 1) s = some r
      ∧ r.written + r.offset_al
          = s.written + s.offset_al + (m.rows * m.cols - (s.esi * m.cols + s.byte))
      ∧ r.offset_al < W
      ∧ (r.out = s.out ∨ ∃ v, r.out = s.out.set start v) := by
  have hle : (m.rows - s.esi) * m.cols ≤ m.rows * m.cols :=
    Nat.mul_le_mul_right _ (Nat.sub_le _ _)
  obtain ⟨r, hr⟩ := decode_loop_returns m W start end_ hC hR (m.rows * m.cols) s hb
    (by omega) (by omega) (m.rows * m.cols + 1) (by omega)
  refine ⟨r, hr, ?_⟩
  have hinv := decode_loop_invariant m W start end_
    (fun t => t.byte < m.cols ∧ t.esi ≤ m.rows ∧ (t.esi = m.rows → t.byte = 0)
      ∧ t.esi * m.cols + t.byte ≤ m.rows * m.cols
      ∧ t.written + t.offset_al + (m.rows * m.cols - (t.esi * m.cols + t.byte))
          = s.written + s.offset_al + (m.rows * m.cols - (s.esi * m.cols + s.byte))
      ∧ t.offset_al < W
      ∧ (t.out = s.out ∨ ∃ v, t.out = s.out.set start v))
    ?_ (m.rows * m.cols + 1) s r ?_ hr
  · obtain ⟨⟨_, hre, hrb, _, hsum, hro, hout⟩, hleave⟩ := hinv
    have hesi : r.esi = m.rows := by
      by_contra hne
      exact hleave ⟨hse, by omega⟩
    have hpos : r.esi * m.cols + r.byte = m.rows * m.cols := by rw [hrb hesi, hesi]; rfl
    rw [hpos, Nat.sub_self, Nat.add_zero] at hsum
    exact ⟨hsum, hro, hout⟩
  · intro t ⟨htb, _, _, htpos, hsum, hto, hout⟩ _ hte
    have hmod : (t.byte + 1) % 65536 = t.byte + 1 := Nat.mod_eq_of_lt (by omega)
    obtain ⟨h1, h2, h3⟩ := decode_step_tally m W start t hto
    have hrow : (t.esi + 1) * m.cols ≤ m.rows * m.cols := Nat.mul_le_mul_right _ hte
    rw [Nat.succ_mul] at hrow
    have hout2 : (decode_step m W start t).out = s.out
        ∨ ∃ v, (decode_step m W start t).out = s.out.set start v := by
      rcases h3 with h3 | ⟨v, h3⟩
      · rw [h3]; exact hout
      · right
        rcases hout with hout | ⟨w, hout⟩
        · exact ⟨v, by rw [h3, hout]⟩
        · exact ⟨v, by rw [h3, hout, List.set_set]⟩
    by_cases hwrap : t.byte + 1 = m.cols
    · have hb2 : (decode_step m W start t).byte = 0 := by
        rw [decode_step_byte, hmod, if_pos hwrap]
      have he2 : (decode_step m W start t).esi = t.esi + 1 := by
        rw [decode_step_esi, hmod, if_pos hwrap, Nat.mod_eq_of_lt (by omega)]
      rw [hb2, he2, Nat.succ_mul]
      refine ⟨by omega, by omega, fun _ => rfl, by omega, ?_, h2, hout2⟩
      omega
    · have hb2 : (decode_step m W start t).byte = t.byte + 1 := by
        rw [decode_step_byte, hmod, if_neg hwrap]
      have he2 : (decode_step m W start t).esi = t.esi := by
        rw [decode_step_esi, hmod, if_neg hwrap]
      rw [hb2, he2]
      refine ⟨by omega, by omega, fun h => absurd h (by omega), by omega, ?_, h2, hout2⟩
      omega
  · have hrow : (s.esi + 1) * m.cols ≤ m.rows * m.cols := Nat.mul_le_mul_right _ he
    rw [Nat.succ_mul] at hrow
    exact ⟨hb, by omega, fun h => absurd h (by omega), by omega, rfl, ho, Or.inl rfl⟩

/-- Writing back the element found at the cursor leaves the buffer as it is. -/
theorem set_same (out : List Nat) (start : Nat) (hs : start < out.length) :
    out.set start (out.get ⟨start, hs⟩) = out := by
  apply List.ext_get
  · simp
  · intro i h1 h2
    by_cases hi : start = i
    · subst hi; simp
    · simp [List.getElem_set_ne hi]

/-- What `decode_bytes` comes to on a ready decoder whose matrix shape fits the 16-bit
counters, for a starting symbol index that does too, with `skip < W` and the cursor
inside a non-empty range: the call returns `skip` plus the number of bytes from
`from_byte` to the end of the matrix, whatever the length of the range, leaves the cursor
where it was and changes the buffer at most at the position of the cursor. -/
theorem decode_bytes_ready_result (d : Decoder) (W : Nat) (out : List Nat)
    (start end_ from_byte skip : Nat) (hready : d.dec.is_ready = true)
    (hC0 : 0 < d.dec.symbols.cols) (hC : d.dec.symbols.cols < 65536)
    (hR : d.dec.symbols.rows < 65536) (hfrom : from_byte / d.dec.symbols.cols < 65536)
    (hW : skip < W) (hse : start < end_) (hs : start < out.length) :
    ∃ v, d.decode_bytes W out start end_ from_byte skip
      = .ok ⟨skip + (d.dec.symbols.rows * d.dec.symbols.cols - from_byte),
          out.set start v, start⟩ := by
  have hne : start ≠ end_ := by omega
  have hget : (if start < end_ then out.get? start else none)
      = some (out.get ⟨start, hs⟩) := by
    rw [if_pos hse, List.get?_eq_get hs]
  have hesi : (from_byte / d.dec.symbols.cols) % 65536 = from_byte / d.dec.symbols.cols :=
    Nat.mod_eq_of_lt hfrom
  have hblt : from_byte % d.dec.symbols.cols < d.dec.symbols.cols := Nat.mod_lt _ hC0
  have hbyte : (from_byte % d.dec.symbols.cols) % 65536 = from_byte % d.dec.symbols.cols :=
    Nat.mod_eq_of_lt (by omega)
  have hpos : from_byte / d.dec.symbols.cols * d.dec.symbols.cols
      + from_byte % d.dec.symbols.cols = from_byte := Nat.div_add_mod' _ _
  simp only [Decoder.decode_bytes, hready, Bool.not_true, Bool.false_eq_true, if_false,
    Nat.ne_of_gt hC0, hget, hesi, hbyte]
  by_cases hin : from_byte / d.dec.symbols.cols < d.dec.symbols.rows
  · obtain ⟨r, hr, hsum, _, hout⟩ := decode_loop_result d.dec.symbols W start end_ hC hR hne
      ⟨from_byte / d.dec.symbols.cols, from_byte % d.dec.symbols.cols, skip,
        out.get ⟨start, hs⟩, 0, out⟩ hblt hin hW
    simp only [hpos, Nat.zero_add] at hsum hout
    simp only [hr]
    by_cases hoff : r.offset_al = 0
    · rw [if_neg (by simp [hoff])]
      rw [hoff, Nat.add_zero] at hsum
      rcases hout with hout | ⟨v, hout⟩
      · exact ⟨out.get ⟨start, hs⟩, by rw [hsum, hout, set_same]⟩
      · exact ⟨v, by rw [hsum, hout]⟩
    · rw [if_pos ⟨hne, hoff⟩]
      rcases hout with hout | ⟨v, hout⟩
      · exact ⟨r.element, by rw [hsum, hout]⟩
      · exact ⟨r.element, by rw [hsum, hout, List.set_set]⟩
  · have hge : d.dec.symbols.rows * d.dec.symbols.cols ≤ from_byte := by
      have h1 : d.dec.symbols.rows * d.dec.symbols.cols
          ≤ from_byte / d.dec.symbols.cols * d.dec.symbols.cols :=
        Nat.mul_le_mul_right _ (by omega)
      omega
    rw [decode_loop_leave d.dec.symbols W start end_ _ _ (by simp [hin])]
    simp only [Nat.sub_eq_zero_of_le hge, Nat.add_zero, Nat.zero_add]
    by_cases hoff : skip = 0
    · rw [if_neg (by simp [hoff])]
      exact ⟨out.get ⟨start, hs⟩, by rw [hoff, set_same]⟩
    · rw [if_pos ⟨hne, hoff⟩]
      exact ⟨out.get ⟨start, hs⟩, rfl⟩

/-- What `decode_aligned` comes to under the conditions of `decode_bytes_ready_result`:
the count of `decode_bytes`, which already includes `skip`, is increased by `skip` once
more before it is divided by the element width. -/
theorem decode_aligned_ready_result (d : Decoder) (W : Nat) (out : List Nat)
    (start end_ from_byte skip : Nat) (hready : d.dec.is_ready = true)
    (hC0 : 0 < d.dec.symbols.cols) (hC : d.dec.symbols.cols < 65536)
    (hR : d.dec.symbols.rows < 65536) (hfrom : from_byte / d.dec.symbols.cols < 65536)
    (hW : skip < W) (hse : start < end_) (hs : start < out.length) :
    ∃ v, d.decode_aligned W out start end_ from_byte skip
      = .ok ⟨(skip + (d.dec.symbols.rows * d.dec.symbols.cols - from_byte) + skip) / W,
          (skip + (d.dec.symbols.rows * d.dec.symbols.cols - from_byte) + skip) % W,
          out.set start v, start⟩ := by
  obtain ⟨v, hv⟩ := decode_bytes_ready_result d W out start end_ from_byte skip hready hC0 hC
    hR hfrom hW hse hs
  refine ⟨v, ?_⟩
  have hW0 : W ≠ 0 := by omega
  simp only [Decoder.decode_aligned, hv, hW0, if_false]

/-- When `decode_bytes` is reported not to return, its loop does not leave for any number
of passes. -/
theorem decode_bytes_no_return (d : Decoder) (W : Nat) (out : List Nat)
    (start end_ from_byte skip : Nat)
    (h : d.decode_bytes W out start end_ from_byte skip = .error .no_return) :
    ∃ element, ∀ fuel, decode_loop d.dec.symbols W start end_ fuel
      ⟨(from_byte / d.dec.symbols.cols) % 65536, (from_byte % d.dec.symbols.cols) % 65536,
        skip, element, 0, out⟩ = none := by
  unfold Decoder.decode_bytes at h
  by_cases hready : d.dec.is_ready = true
  · by_cases hC0 : d.dec.symbols.cols = 0
    · simp [hready, hC0] at h
    · simp only [hready, Bool.not_true, Bool.false_eq_true, if_false, hC0] at h
      cases hget : (if start < end_ then out.get? start else none) with
      | none =>
        rw [hget] at h
        simp at h
      | some element =>
        simp only [hget] at h
        refine ⟨element, ?_⟩
        apply decode_loop_fuel_adequate
        · exact Nat.mod_lt _ (by decide)
        · exact Nat.lt_of_le_of_lt (Nat.mod_le _ _) (Nat.mod_lt _ (Nat.pos_of_ne_zero hC0))
        · cases hloop : decode_loop d.dec.symbols W start end_
              (d.dec.symbols.rows * d.dec.symbols.cols + 1)
              ⟨(from_byte / d.dec.symbols.cols) % 65536,
                (from_byte % d.dec.symbols.cols) % 65536, skip, element, 0, out⟩ with
          | none => rfl
          | some r =>
            exfalso
            simp only [hloop] at h
            split_ifs at h
  · simp [hready] at h

/-- The session built for precomputation starts in `INIT` with an empty buffer, no
interleaver and no precomputed matrix. -/
theorem ctor_symbols_fresh {E : Type} (api : Raw_Encoder E) (symbols symbol_size : Nat) :
    (Encoder.ctor_symbols api symbols symbol_size).state = .INIT
      ∧ (Encoder.ctor_symbols api symbols symbol_size).data = []
      ∧ (Encoder.ctor_symbols api symbols symbol_size).interleaver = none
      ∧ (Encoder.ctor_symbols api symbols symbol_size).precomputed.rows = 0 :=
  ⟨rfl, rfl, rfl, rfl⟩

/-- The session built from a data range starts in `NEED_DATA` with an empty buffer, a bound
interleaver and both geometry members 0. -/
theorem ctor_data_fresh {E : Type} (api : Raw_Encoder E) (range : List Nat)
    (symbol_size garbage : Nat) :
    (Encoder.ctor_data api range symbol_size garbage).state = .NEED_DATA
      ∧ (Encoder.ctor_data api range symbol_size garbage).data = []
      ∧ (Encoder.ctor_data api range symbol_size garbage)._symbols = 0
      ∧ (Encoder.ctor_data api range symbol_size garbage)._symbol_size = 0
      ∧ (Encoder.ctor_data api range symbol_size garbage).interleaver
          = some ⟨range, garbage, SIZE_MAX, symbol_size⟩ :=
  ⟨rfl, rfl, rfl, rfl, rfl⟩

/-- C1 (code bug). In the scenario of the spec, a 4 x 8 matrix holding `0..31`, one-byte
output elements, `from_byte = 0` and a zeroed output range of 32 elements,
`decode_bytes` returns 32 but never moves the cursor: every byte is committed to element
0, which ends as 31, and elements 1 to 31 keep their initial 0. The output is not
`0..31`. And as the accumulator starts from the element under the cursor, a single byte 5
decoded with `skip = 0` into an element that holds 7 leaves 12. -/
theorem decode_bytes_scenario_overwrites_first_element :
    dec_4x8.decode_bytes 1 (List.replicate 32 0) 0 32 0 0
        = .ok ⟨32, 31 :: List.replicate 31 0, 0⟩
      ∧ (List.range 32).map mtx_4x8.flat = List.range 32
      ∧ 31 :: List.replicate 31 0 ≠ (List.range 32).map mtx_4x8.flat
      ∧ dec_1x1.decode_bytes 1 [7] 0 1 0 0 = .ok ⟨1, [12], 0⟩ := by
  decide

/-- C2 (code bug). For the 1 x 2 matrix holding `1, 2`, one-byte elements and a zeroed
range of two elements, the single call leaves `[2, 0]`; split at `k = 1`, the first call
already consumes both bytes and leaves the cursor where it was, and the second call adds
byte 1 onto what element 0 holds: the buffer ends as `[4, 0]`. The two runs differ (and
neither is `[1, 2]`). Resumed instead at element 2, the number of elements the first call
reports, the second call has an empty range and dereferences its end. -/
theorem decode_bytes_split_differs_from_single_call :
    dec_1x2.decode_whole 1 [0, 0] 2 = .ok [2, 0]
      ∧ dec_1x2.decode_resumed 1 [0, 0] 2 1 = .ok [4, 0]
      ∧ dec_1x2.decode_aligned 1 [0, 0] 0 1 0 0 = .ok ⟨2, 0, [2, 0], 0⟩
      ∧ dec_1x2.decode_bytes 1 [2, 0] 2 2 1 0 = .error .out_of_range := by
  decide

/-- C3 (code bug). With an output range of a single one-byte element, `decode_bytes` over
the 4 x 8 matrix returns 32, more than the `1 * 1` bytes of the range: the cursor never
reaches its end bound, and all 32 commits go to the same position. -/
theorem decode_bytes_count_exceeds_range :
    dec_4x8.decode_bytes 1 [0] 0 1 0 0 = .ok ⟨32, [31], 0⟩ ∧ ¬ (32 ≤ 1 * 1) := by
  decide

/-- C4 (code bug). With four-byte elements, `skip = 2` and the two bytes `1, 2` to fold
into an element that already holds `0xBBAA`, the element is completed (`0x0201BBAA`), yet
`decode_aligned` reports a leftover offset of 2 instead of 0: `decode_bytes` counts the
skipped bytes in its return value and `decode_aligned` adds `skip` once more. With
`skip = 0` over a range of two one-byte elements it reports 2 elements although only
element 0 was written. -/
theorem decode_aligned_counts_skip_twice :
    dec_1x2.decode_aligned 4 [0xBBAA] 0 1 0 2 = .ok ⟨1, 2, [0x0201BBAA], 0⟩
      ∧ dec_1x2.decode_aligned 1 [0, 0] 0 2 0 0 = .ok ⟨2, 0, [2, 0], 0⟩ := by
  decide

/-- C5. When the engine is not ready, `decode_bytes` and `decode_symbol` return 0 and
leave the output buffer and the output cursor as they were, for every element width,
output range, `from_byte`, `esi` and `skip`. -/
theorem decode_not_ready_returns_zero (d : Decoder) (W : Nat) (out : List Nat)
    (start end_ from_byte esi skip : Nat) (h : d.dec.is_ready = false) :
    d.decode_bytes W out start end_ from_byte skip = .ok ⟨0, out, start⟩
      ∧ d.decode_symbol W out start end_ esi skip = .ok ⟨0, out, start⟩ := by
  simp [Decoder.decode_bytes, Decoder.decode_symbol, h]

/-- C5 at a concrete input. -/
theorem decode_not_ready_returns_zero_witness :
    dec_idle.dec.is_ready = false
      ∧ dec_idle.decode_bytes 1 [7, 8] 0 2 0 0 = .ok ⟨0, [7, 8], 0⟩
      ∧ dec_idle.decode_symbol 1 [7, 8] 0 2 3 0 = .ok ⟨0, [7, 8], 0⟩ :=
  ⟨rfl, decode_not_ready_returns_zero dec_idle 1 [7, 8] 0 2 0 3 0 rfl⟩

/-! ## Data ingestion -/

/-- The loop of `add_data` appends to `data` one element per unit of `written`, and never
takes `data` beyond a bound `n` that covers the byte capacity. -/
theorem add_data_loop_length (W cap : Nat) (conv : Nat → Nat) (hW : 1 ≤ W)
    (range : List Nat) :
    ∀ (data : List Nat) (written : Nat) (state : Data_State),
      (add_data_loop W cap conv range data written state).1.length + written
          = data.length + (add_data_loop W cap conv range data written state).2.1
        ∧ (data.length ≤ cap →
            (add_data_loop W cap conv range data written state).1.length ≤ cap) := by
  induction range with
  | nil => intro data written state; simp [add_data_loop]
  | cons x rest ih =>
    intro data written state
    by_cases hfull : data.length * W ≥ cap
    · simp [add_data_loop, hfull]
    · have hlt : data.length < cap := by
        have : data.length ≤ data.length * W := Nat.le_mul_of_pos_right _ hW
        omega
      have h := ih (data ++ [conv x]) (written + 1) state
      simp only [add_data_loop, hfull, if_false]
      simp only [List.length_append, List.length_singleton] at h
      constructor
      · omega
      · intro _; exact h.2 hlt

/-- The loop of `add_data` ends in `FULL` exactly when it leaves input unconsumed, and then
the buffer is at its byte capacity. -/
theorem add_data_loop_state (W cap : Nat) (conv : Nat → Nat) (range : List Nat) :
    ∀ (data : List Nat) (written : Nat),
      ((add_data_loop W cap conv range data written .NEED_DATA).2.2 = .FULL
          ↔ (add_data_loop W cap conv range data written .NEED_DATA).2.1
              < written + range.length)
        ∧ (add_data_loop W cap conv range data written .NEED_DATA).2.1
            ≤ written + range.length
        ∧ ((add_data_loop W cap conv range data written .NEED_DATA).2.2 = .FULL →
            cap ≤ (add_data_loop W cap conv range data written .NEED_DATA).1.length * W)
        ∧ ((add_data_loop W cap conv range data written .NEED_DATA).2.2 = .FULL
            ∨ (add_data_loop W cap conv range data written .NEED_DATA).2.2 = .NEED_DATA) := by
  induction range with
  | nil => intro data written; simp [add_data_loop]
  | cons x rest ih =>
    intro data written
    by_cases hfull : data.length * W ≥ cap
    · simp [add_data_loop, hfull]
    · have h := ih (data ++ [conv x]) (written + 1)
      simp only [add_data_loop, hfull, if_false, List.length_cons]
      refine ⟨?_, ?_, h.2.2.1, h.2.2.2⟩
      · rw [h.1]; omega
      · have := h.2.1; omega

/-- One `add_data` call keeps the geometry, and keeps a buffer within capacity within
capacity; the count returned is the growth of the buffer. -/
theorem add_data_invariant {E : Type} (W : Nat) (conv : Nat → Nat) (hW : 1 ≤ W)
    (s : Encoder E) (range : List Nat)
    (hint : s.state = .NEED_DATA → s._symbols * s._symbol_size < 2 ^ 31)
    (hcap : s.data.length ≤ s._symbols * s._symbol_size) :
    (s.add_data W conv range).2._symbols = s._symbols
      ∧ (s.add_data W conv range).2._symbol_size = s._symbol_size
      ∧ ((s.add_data W conv range).2.state = .NEED_DATA → s.state = .NEED_DATA)
      ∧ (s.add_data W conv range).2.data.length = s.data.length + (s.add_data W conv range).1
      ∧ (s.add_data W conv range).2.data.length ≤ s._symbols * s._symbol_size := by
  by_cases hst : s.state = .NEED_DATA
  · have hc : capacity s._symbols s._symbol_size = s._symbols * s._symbol_size := by
      rw [capacity, if_pos (hint hst)]
    have h := add_data_loop_length W (s._symbols * s._symbol_size) conv hW
      (List.range range.length) s.data 0 s.state
    simp only [Encoder.add_data, hst, hc, ne_eq, not_true_eq_false, if_false]
    rw [hst] at h
    refine ⟨trivial, trivial, ?_, ?_, h.2 hcap⟩
    · intro _; trivial
    · have := h.1
      omega
  · simp [Encoder.add_data, hst, hcap]

/-- C6. For every session whose ingestion buffer starts empty (as both constructors leave
it) and whose geometry product fits the `int` it is computed in while data is taken, and
for every sequence of `add_data` calls on elements of `W >= 1` bytes, the sum of the counts
returned equals the length of the ingestion buffer and does not exceed
`_symbols * _symbol_size`. -/
theorem add_data_total_within_capacity {E : Type} (W : Nat) (conv : Nat → Nat) (hW : 1 ≤ W)
    (ranges : List (List Nat)) :
    ∀ (s : Encoder E), s.data = [] →
      (s.state = .NEED_DATA → s._symbols * s._symbol_size < 2 ^ 31) →
      (s.add_all W conv ranges).1 = (s.add_all W conv ranges).2.data.length
        ∧ (s.add_all W conv ranges).1 ≤ s._symbols * s._symbol_size := by
  suffices key : ∀ (s : Encoder E),
      (s.state = .NEED_DATA → s._symbols * s._symbol_size < 2 ^ 31) →
      s.data.length ≤ s._symbols * s._symbol_size →
      (s.add_all W conv ranges).2.data.length = s.data.length + (s.add_all W conv ranges).1
        ∧ (s.add_all W conv ranges).2.data.length ≤ s._symbols * s._symbol_size by
    intro s hfresh hint
    have h := key s hint (by simp [hfresh])
    simp only [hfresh, List.length_nil, Nat.zero_add] at h
    exact ⟨h.1.symm, h.1 ▸ h.2⟩
  induction ranges with
  | nil => intro s _ hcap; simpa [Encoder.add_all] using hcap
  | cons range rest ih =>
    intro s hint hcap
    obtain ⟨h1, h2, h3, h4, h5⟩ := add_data_invariant W conv hW s range hint hcap
    have h := ih (s.add_data W conv range).2 (by rw [h1, h2]; exact fun hs => hint (h3 hs))
      (by rw [h1, h2]; exact h5)
    rw [h1, h2] at h
    simp only [Encoder.add_all]
    constructor
    · rw [h.1, h4]; omega
    · exact h.2

/-- C6 at a concrete input: a session with room for 2 x 2 bytes is offered 3 and then 3
more one-byte elements, and takes 4 in all. -/
theorem add_data_total_within_capacity_witness :
    (enc_2x2.add_all 1 ptr_to_bool [[1, 0, 1], [0, 1, 1]]).1 = 4
      ∧ (enc_2x2.add_all 1 ptr_to_bool [[1, 0, 1], [0, 1, 1]]).2.data = [1, 1, 1, 1]
      ∧ (enc_2x2.add_all 1 ptr_to_bool [[1, 0, 1], [0, 1, 1]]).1
          = (enc_2x2.add_all 1 ptr_to_bool [[1, 0, 1], [0, 1, 1]]).2.data.length
      ∧ (enc_2x2.add_all 1 ptr_to_bool [[1, 0, 1], [0, 1, 1]]).1
          ≤ enc_2x2._symbols * enc_2x2._symbol_size :=
  ⟨by decide, by decide,
    add_data_total_within_capacity 1 ptr_to_bool (by decide) [[1, 0, 1], [0, 1, 1]] enc_2x2 rfl
      (fun _ => by decide)⟩

/-- C7 (code bug). A call that brings the buffer to exactly `_symbols * _symbol_size`
elements leaves the session in `NEED_DATA`: the capacity test stands at the top of the
loop and only runs while input is left. So for the session built from a data range
(capacity `0 * 0`) given an empty range, and so for a session with room for 2 x 2 one-byte
elements given exactly four; given five, the same session takes the same four and becomes
`FULL`. After the exact fill `encode` still returns 0. -/
theorem add_data_at_capacity_still_need_data :
    (enc_from_data.state = .NEED_DATA
        ∧ (enc_from_data.add_data 1 ptr_to_bool []).2.data.length
            = enc_from_data._symbols * enc_from_data._symbol_size
        ∧ (enc_from_data.add_data 1 ptr_to_bool []).2.state ≠ .FULL)
      ∧ (enc_2x2.state = .NEED_DATA
        ∧ (enc_2x2.add_data 1 ptr_to_bool [1, 0, 1, 1]).2.data.length
            = enc_2x2._symbols * enc_2x2._symbol_size
        ∧ (enc_2x2.add_data 1 ptr_to_bool [1, 0, 1, 1]).2.state ≠ .FULL)
      ∧ ((enc_2x2.add_data 1 ptr_to_bool [1, 0, 1, 1, 0]).1 = 4
        ∧ (enc_2x2.add_data 1 ptr_to_bool [1, 0, 1, 1, 0]).2.state = .FULL)
      ∧ ((enc_2x2.add_data 1 ptr_to_bool [1, 0, 1, 1]).2.encode toy_engine [0, 0] 0 2 0).1
          = ⟨0, [0, 0], 0⟩ := by
  decide

/-- When `add_data` sets `FULL`: for every session in `NEED_DATA` (geometry product within
`int`) and every input range, the state after the call is `FULL` exactly when the call
returns fewer elements than the range offers; the buffer is then at its byte capacity; and
a call that consumes its whole range leaves the session in `NEED_DATA`. -/
theorem add_data_full_iff_input_left {E : Type} (W : Nat) (conv : Nat → Nat) (s : Encoder E)
    (range : List Nat) (hst : s.state = .NEED_DATA)
    (hint : s._symbols * s._symbol_size < 2 ^ 31) :
    ((s.add_data W conv range).2.state = .FULL ↔ (s.add_data W conv range).1 < range.length)
      ∧ ((s.add_data W conv range).2.state = .FULL →
          s._symbols * s._symbol_size ≤ (s.add_data W conv range).2.data.length * W)
      ∧ ((s.add_data W conv range).1 = range.length →
          (s.add_data W conv range).2.state = .NEED_DATA) := by
  have hc : capacity s._symbols s._symbol_size = s._symbols * s._symbol_size := by
    rw [capacity, if_pos hint]
  have h := add_data_loop_state W (s._symbols * s._symbol_size) conv (List.range range.length)
    s.data 0
  simp only [Encoder.add_data, hst, hc, ne_eq, not_true_eq_false, if_false]
  simp only [Nat.zero_add, List.length_range] at h
  refine ⟨h.1, h.2.2.1, ?_⟩
  intro heq
  rcases h.2.2.2 with hf | hn
  · have := h.1.mp hf
    omega
  · exact hn

/-- C8. In state `FULL` or `INIT`, `add_data` returns 0 and leaves the whole session, so
the ingestion buffer, the state and the precomputed matrix, as it was, for every input
range. -/
theorem add_data_noop_outside_need_data {E : Type} (W : Nat) (conv : Nat → Nat)
    (s : Encoder E) (range : List Nat) (h : s.state = .FULL ∨ s.state = .INIT) :
    s.add_data W conv range = (0, s) := by
  rcases h with h | h <;> simp [Encoder.add_data, h]

/-- C8 at concrete inputs, one session in `FULL` and one in `INIT`. -/
theorem add_data_noop_outside_need_data_witness :
    (enc_full.state = .FULL ∧ enc_full.add_data 1 ptr_to_bool [9, 9] = (0, enc_full))
      ∧ (enc_10x4.state = .INIT ∧ enc_10x4.add_data 1 ptr_to_bool [9, 9] = (0, enc_10x4)) :=
  ⟨⟨rfl, add_data_noop_outside_need_data 1 ptr_to_bool enc_full [9, 9] (Or.inl rfl)⟩,
    ⟨rfl, add_data_noop_outside_need_data 1 ptr_to_bool enc_10x4 [9, 9] (Or.inr rfl)⟩⟩

/-! ## Symbol emission -/

/-- C9. `encode` returns 0 and leaves the output buffer, the output cursor and the session
as they were, for every symbol id and output range, when the session is in `NEED_DATA`,
when it is in `INIT` with the raw engine not ready, and when it is in `FULL` with the raw
engine not ready and an empty precomputed matrix. -/
theorem encode_zero_when_emission_impossible {E : Type} (api : Raw_Encoder E) (s : Encoder E)
    (out : List Nat) (start end_ id : Nat)
    (h : s.state = .NEED_DATA
      ∨ (s.state = .INIT ∧ api.ready s.encoder = false)
      ∨ (s.state = .FULL ∧ api.ready s.encoder = false ∧ s.precomputed.rows = 0)) :
    s.encode api out start end_ id = (⟨0, out, start⟩, s) := by
  rcases h with h | ⟨h, hr⟩ | ⟨h, hr, hp⟩
  · simp [Encoder.encode, h]
  · simp [Encoder.encode, h, hr]
  · simp [Encoder.encode, h, hr, hp]

/-- C9 at concrete inputs, one session for each of the three situations. -/
theorem encode_zero_when_emission_impossible_witness :
    enc_from_data.encode toy_engine [0, 0] 0 2 5 = (⟨0, [0, 0], 0⟩, enc_from_data)
      ∧ enc_10x4.encode toy_engine [0, 0] 0 2 5 = (⟨0, [0, 0], 0⟩, enc_10x4)
      ∧ enc_full.encode toy_engine [0, 0] 0 2 5 = (⟨0, [0, 0], 0⟩, enc_full) :=
  ⟨encode_zero_when_emission_impossible toy_engine enc_from_data [0, 0] 0 2 5 (Or.inl rfl),
    encode_zero_when_emission_impossible toy_engine enc_10x4 [0, 0] 0 2 5
      (Or.inr (Or.inl ⟨rfl, rfl⟩)),
    encode_zero_when_emission_impossible toy_engine enc_full [0, 0] 0 2 5
      (Or.inr (Or.inr ⟨rfl, rfl, rfl⟩))⟩

/-! ## Decoder construction -/

/-- C10 (as stated, refuted). For `bytes = 65536` and `symbol_size = 1` the constructor hands
the raw decoder 0 symbols, not `ceil (65536 / 1) = 65536`; for `bytes = 131071` and
`symbol_size = 2` the increment wraps and it hands over 0, not 65536. -/
theorem decoder_ctor_symbols_truncated :
    Decoder.ctor_symbols 65536 1 = .ok 0 ∧ ceil_div 65536 1 = 65536
      ∧ Decoder.ctor_symbols 131071 2 = .ok 0 ∧ ceil_div 131071 2 = 65536 := by
  decide

/-- C10 (amended). For every `bytes` and every `symbol_size > 0` the constructor gives the raw
decoder `ceil (bytes / symbol_size)` reduced modulo `65536`, together with `symbol_size`;
the count is `ceil (bytes / symbol_size)` itself whenever that is below `65536`. -/
theorem decoder_ctor_symbols_ceil_mod (raw : Nat → Nat → Raw_Decoder) (bytes symbol_size : Nat)
    (type : Report) (h : 0 < symbol_size) :
    Decoder.ctor raw bytes symbol_size type
        = .ok ⟨raw (ceil_div bytes symbol_size % 65536) symbol_size, type⟩
      ∧ (ceil_div bytes symbol_size < 65536 →
          Decoder.ctor raw bytes symbol_size type
            = .ok ⟨raw (ceil_div bytes symbol_size) symbol_size, type⟩) := by
  have hne : symbol_size ≠ 0 := by omega
  have key : Decoder.ctor_symbols bytes symbol_size
      = .ok (ceil_div bytes symbol_size % 65536) := by
    unfold Decoder.ctor_symbols ceil_div
    rw [if_neg hne]
    by_cases hr : bytes % symbol_size = 0
    · have hq : (bytes + symbol_size - 1) / symbol_size = bytes / symbol_size := by
        obtain ⟨q, hq⟩ := Nat.dvd_of_mod_eq_zero hr
        subst hq
        rw [Nat.mul_div_cancel_left q h]
        apply Nat.div_eq_of_lt_le
        · rw [Nat.mul_comm]; omega
        · rw [Nat.mul_comm, Nat.succ_mul]; omega
      simp [hr, hq]
    · have hq : (bytes + symbol_size - 1) / symbol_size = bytes / symbol_size + 1 := by
        have hlt := Nat.mod_lt bytes h
        have hdm := Nat.div_add_mod bytes symbol_size
        have h1 : 1 ≤ bytes % symbol_size := Nat.one_le_iff_ne_zero.mpr hr
        have lo : (bytes / symbol_size + 1) * symbol_size ≤ bytes + symbol_size - 1 := by
          rw [Nat.add_mul, Nat.mul_comm]; omega
        have hi : bytes + symbol_size - 1 < (bytes / symbol_size + 1).succ * symbol_size := by
          rw [Nat.succ_mul, Nat.add_mul, Nat.mul_comm]; omega
        exact Nat.div_eq_of_lt_le lo hi
      simp [hr, hq]
  constructor
  · simp [Decoder.ctor, key]
  · intro hlt
    simp [Decoder.ctor, key, Nat.mod_eq_of_lt hlt]

/-- C10 (amended) at a concrete input: 32 bytes in symbols of 8 give 4 symbols, and 33 bytes
give 5. -/
theorem decoder_ctor_symbols_ceil_mod_witness :
    (Decoder.ctor_symbols 32 8 = .ok 4 ∧ Decoder.ctor_symbols 33 8 = .ok 5)
      ∧ (Decoder.ctor (fun n k => ⟨false, ⟨n, k, fun _ _ => 0⟩⟩) 33 8 .COMPLETE
          = .ok ⟨(fun n k => ⟨false, ⟨n, k, fun _ _ => 0⟩⟩) (ceil_div 33 8 % 65536) 8, .COMPLETE⟩
        ∧ (ceil_div 33 8 < 65536 →
          Decoder.ctor (fun n k => ⟨false, ⟨n, k, fun _ _ => 0⟩⟩) 33 8 .COMPLETE
            = .ok ⟨(fun n k => ⟨false, ⟨n, k, fun _ _ => 0⟩⟩) (ceil_div 33 8) 8, .COMPLETE⟩)) :=
  ⟨by decide,
    decoder_ctor_symbols_ceil_mod (fun n k => ⟨false, ⟨n, k, fun _ _ => 0⟩⟩) 33 8 .COMPLETE
      (by decide)⟩

/-! ## Encoder construction -/

/-- C11 (code bug). The session built from a full data range has its interleaver bound over
that range, and its state right after construction is `NEED_DATA`, the state that the
enumeration documents as "first constructor used. no interleaver until FULL", while it
documents `INIT` as "second constructor used: we already have the interleaver". -/
theorem ctor_data_enters_need_data :
    enc_from_data.state = .NEED_DATA
      ∧ (enc_from_data.interleaver.map fun il => il.data) = some [5, 6, 7]
      ∧ ∀ (E : Type) (api : Raw_Encoder E) (range : List Nat) (symbol_size garbage : Nat),
          (Encoder.ctor_data api range symbol_size garbage).state = .NEED_DATA :=
  ⟨rfl, rfl, fun _ _ _ _ _ => rfl⟩

/-! ## Symbol decoding -/

/-- C12. `decode_symbol` is `decode_bytes` at the symbol's byte offset: for every decoder
(ready or not), element width, output range, `esi` and `skip`, the two calls return the
same count and leave the same buffer and cursor, or fail alike. -/
theorem decode_symbol_eq_decode_bytes (d : Decoder) (W : Nat) (out : List Nat)
    (start end_ esi skip : Nat) :
    d.decode_symbol W out start end_ esi skip
      = d.decode_bytes W out start end_ (esi * d.dec.symbols.cols) skip := by
  unfold Decoder.decode_symbol
  by_cases h : d.dec.is_ready = true
  · simp [h, Raw_Decoder.cols]
  · simp [h, Decoder.decode_bytes]

/-! ## Iterator comparison -/

/-- C13. Equality of symbol iterators looks at the index only: for any two encoder
iterators, and any two decoder iterators, whatever sessions they point to, `==` holds
exactly when the indices are equal and `!=` is its negation. -/
theorem symbol_iterator_eq_index_only :
    (∀ a b : It.Encoder.Symbol_Iterator,
        (a.operator_eq b = true ↔ a._esi = b._esi) ∧ a.operator_ne b = !a.operator_eq b)
      ∧ (∀ a b : It.Decoder.Symbol_Iterator,
        (a.operator_eq b = true ↔ a._esi = b._esi) ∧ a.operator_ne b = !a.operator_eq b) := by
  constructor
  · intro a b
    simp only [It.Encoder.Symbol_Iterator.operator_eq, It.Encoder.Symbol_Iterator.operator_ne,
      beq_iff_eq, bne]
    exact ⟨eq_comm, trivial⟩
  · intro a b
    simp only [It.Decoder.Symbol_Iterator.operator_eq, It.Decoder.Symbol_Iterator.operator_ne,
      beq_iff_eq, bne]
    exact ⟨eq_comm, trivial⟩

/-! ## Session histories -/

/-- The loop of `add_data` appends to the buffer, in order, the conversions of the iterator
values it counts. -/
theorem add_data_loop_append (W cap : Nat) (conv : Nat → Nat) (range : List Nat) :
    ∀ (data : List Nat) (written : Nat) (state : Data_State),
      written ≤ (add_data_loop W cap conv range data written state).2.1
        ∧ (add_data_loop W cap conv range data written state).2.1 ≤ written + range.length
        ∧ (add_data_loop W cap conv range data written state).1
            = data ++ (range.take
                ((add_data_loop W cap conv range data written state).2.1 - written)).map
                  conv := by
  induction range with
  | nil => intro data written state; simp [add_data_loop]
  | cons x rest ih =>
    intro data written state
    by_cases hfull : data.length * W ≥ cap
    · simp [add_data_loop, hfull]
    · obtain ⟨h1, h2, h3⟩ := ih (data ++ [conv x]) (written + 1) state
      simp only [add_data_loop, hfull, if_false, List.length_cons]
      refine ⟨by omega, by omega, ?_⟩
      rw [h3]
      obtain ⟨k, hk⟩ :
          ∃ k, (add_data_loop W cap conv rest (data ++ [conv x]) (written + 1) state).2.1
            = written + 1 + k := ⟨_, (Nat.add_sub_cancel' h1).symm⟩
      rw [hk]
      have e1 : written + 1 + k - (written + 1) = k := by omega
      have e2 : written + 1 + k - written = k + 1 := by omega
      rw [e1, e2, List.take_succ_cons, List.map_cons, List.append_assoc,
        List.singleton_append]

/-- What `add_data` leaves in the buffer: for every session and every input range, the
count `r` returned is at most the length of the range, and the buffer after the call is
the buffer before it followed by the conversions of the first `r` iterators of the range.
The elements of the range do not enter. -/
theorem add_data_appends_converted {E : Type} (W : Nat) (conv : Nat → Nat) (s : Encoder E)
    (range : List Nat) :
    (s.add_data W conv range).1 ≤ range.length
      ∧ (s.add_data W conv range).2.data
          = s.data ++ (List.range (s.add_data W conv range).1).map conv := by
  by_cases hst : s.state = .NEED_DATA
  · obtain ⟨_, h2, h3⟩ := add_data_loop_append W (capacity s._symbols s._symbol_size) conv
      (List.range range.length) s.data 0 s.state
    simp only [Encoder.add_data, hst, ne_eq, not_true_eq_false, if_false]
    rw [hst] at h2 h3
    simp only [Nat.zero_add, Nat.sub_zero, List.length_range] at h2 h3
    refine ⟨h2, ?_⟩
    rw [h3, List.take_range, Nat.min_eq_left h2]
  · simp [Encoder.add_data, hst]

/-- With a byte capacity of 0 the loop of `add_data` takes nothing. -/
theorem add_data_loop_no_room (W : Nat) (conv : Nat → Nat) (range data : List Nat)
    (written : Nat) (state : Data_State) :
    (add_data_loop W 0 conv range data written state).1 = data
      ∧ (add_data_loop W 0 conv range data written state).2.1 = written := by
  cases range <;> simp [add_data_loop]

/-- What one call leaves alone: the geometry always; the state, except for the step from
`NEED_DATA` to `FULL`; a bound interleaver stays bound; outside `add_data` the buffer; and
in `INIT` the interleaver and the precomputed matrix. -/
theorem call_frame {E : Type} (api : Raw_Encoder E) (W : Nat) (conv : Nat → Nat)
    (s : Encoder E) (c : Call) :
    (s.call api W conv c)._symbols = s._symbols
      ∧ (s.call api W conv c)._symbol_size = s._symbol_size
      ∧ ((s.call api W conv c).state = s.state
          ∨ (s.state = .NEED_DATA ∧ (s.call api W conv c).state = .FULL))
      ∧ (s.interleaver ≠ none → (s.call api W conv c).interleaver ≠ none)
      ∧ ((∀ range, c ≠ .add_data range) → (s.call api W conv c).data = s.data)
      ∧ (s.state = .INIT → (s.call api W conv c).interleaver = s.interleaver
          ∧ (s.call api W conv c).precomputed = s.precomputed) := by
  cases c with
  | add_data range =>
    by_cases hst : s.state = .NEED_DATA
    · have h := add_data_loop_state W (capacity s._symbols s._symbol_size) conv
        (List.range range.length) s.data 0
      simp only [Encoder.call, Encoder.add_data, hst, ne_eq, not_true_eq_false, if_false]
      refine ⟨trivial, trivial, ?_, fun h => h, fun h => absurd rfl (h range), ?_⟩
      · rcases h.2.2.2 with hf | hn
        · exact Or.inr ⟨trivial, hf⟩
        · exact Or.inl hn
      · intro h; cases h
    · simp [Encoder.call, Encoder.add_data, hst]
  | compute_sync =>
    by_cases hst : s.state = .INIT
    · simp [Encoder.call, Encoder.compute_sync, hst]
    · simp [Encoder.call, Encoder.compute_sync, hst]
  | encode out start end_ id =>
    cases hst : s.state with
    | INIT =>
      by_cases hr : api.ready s.encoder = true
      · simp [Encoder.call, Encoder.encode, Encoder.emit, hst, hr]
      · simp [Encoder.call, Encoder.encode, Encoder.emit, hst, hr]
    | NEED_DATA => simp [Encoder.call, Encoder.encode, hst]
    | FULL =>
      by_cases hr : api.ready s.encoder = true
      · simp [Encoder.call, Encoder.encode, Encoder.emit, hst, hr]
      · by_cases hp : s.precomputed.rows = 0
        · simp [Encoder.call, Encoder.encode, Encoder.emit, hst, hr, hp]
        · simp [Encoder.call, Encoder.encode, Encoder.emit, hst, hr, hp]

/-- A property of sessions kept by every call holds after every sequence of calls. -/
theorem calls_induction {E : Type} (api : Raw_Encoder E) (W : Nat) (conv : Nat → Nat)
    (P : Encoder E → Prop) (hstep : ∀ s c, P s → P (s.call api W conv c)) (cs : List Call) :
    ∀ s, P s → P (s.calls api W conv cs) := by
  induction cs with
  | nil => intro s hs; exact hs
  | cons c rest ih =>
    intro s hs
    exact ih (s.call api W conv c) (hstep s c hs)

/-- C14. The ingestion state never goes backwards: from `FULL` every sequence of
`add_data`, `compute_sync` and `encode` calls ends in `FULL`, and from `INIT` every such
sequence ends in `INIT`. -/
theorem ingestion_state_never_goes_back {E : Type} (api : Raw_Encoder E) (W : Nat)
    (conv : Nat → Nat) (s : Encoder E) (cs : List Call) :
    (s.state = .FULL → (s.calls api W conv cs).state = .FULL)
      ∧ (s.state = .INIT → (s.calls api W conv cs).state = .INIT) := by
  constructor
  · apply calls_induction api W conv (fun t => t.state = .FULL)
    intro t c ht
    rcases (call_frame api W conv t c).2.2.1 with h | ⟨h, _⟩
    · rw [h]; exact ht
    · rw [ht] at h; cases h
  · apply calls_induction api W conv (fun t => t.state = .INIT)
    intro t c ht
    rcases (call_frame api W conv t c).2.2.1 with h | ⟨h, _⟩
    · rw [h]; exact ht
    · rw [ht] at h; cases h

/-- C14 at concrete inputs: a session that has just become `FULL`, and a session in `INIT`,
each taken through an `add_data`, a `compute_sync` and an `encode` call. -/
theorem ingestion_state_never_goes_back_witness :
    (enc_2x2.add_data 1 ptr_to_bool [1, 0, 1, 1, 0]).2.state = .FULL
      ∧ ((enc_2x2.add_data 1 ptr_to_bool [1, 0, 1, 1, 0]).2.calls toy_engine 1 ptr_to_bool
          [.add_data [1], .compute_sync, .encode [0, 0] 0 2 5]).state = .FULL
      ∧ enc_10x4.state = .INIT
      ∧ (enc_10x4.calls toy_engine 1 ptr_to_bool
          [.add_data [1], .compute_sync, .encode [0, 0] 0 2 5]).state = .INIT :=
  ⟨by decide,
    (ingestion_state_never_goes_back toy_engine 1 ptr_to_bool
      (enc_2x2.add_data 1 ptr_to_bool [1, 0, 1, 1, 0]).2
      [.add_data [1], .compute_sync, .encode [0, 0] 0 2 5]).1 (by decide),
    rfl,
    (ingestion_state_never_goes_back toy_engine 1 ptr_to_bool enc_10x4
      [.add_data [1], .compute_sync, .encode [0, 0] 0 2 5]).2 rfl⟩

/-- C16 (code bug). A session built for 10 symbols of 4 bytes on which `compute_sync` has
been called, with success, has no interleaver and an empty precomputed matrix: the
constructor leaves the interleaver null and sets `INIT`, the state documented as "we
already have the interleaver", and in `INIT` nothing fills either of the two. -/
theorem deferred_session_both_empty :
    (enc_10x4.compute_sync toy_engine).1 = true
      ∧ (enc_10x4.calls toy_engine 1 ptr_to_bool [.compute_sync]).interleaver = none
      ∧ (enc_10x4.calls toy_engine 1 ptr_to_bool [.compute_sync]).precomputed.rows = 0 := by
  decide

/-- What the two constructors lead to: after every sequence of `add_data`, `compute_sync`
and `encode` calls a session built from a data range has its interleaver bound, and a
session built from a symbol count has no interleaver and an empty precomputed matrix. -/
theorem interleaver_bound_by_constructor {E : Type} (api : Raw_Encoder E) (W : Nat)
    (conv : Nat → Nat) (cs : List Call) :
    (∀ (range : List Nat) (symbol_size garbage : Nat),
        ((Encoder.ctor_data api range symbol_size garbage).calls api W conv cs).interleaver
          ≠ none)
      ∧ (∀ (symbols symbol_size : Nat),
        ((Encoder.ctor_symbols api symbols symbol_size).calls api W conv cs).interleaver
            = none
          ∧ ((Encoder.ctor_symbols api symbols symbol_size).calls api W conv
              cs).precomputed.rows = 0) := by
  constructor
  · intro range symbol_size garbage
    apply calls_induction api W conv (fun t => t.interleaver ≠ none)
    · intro t c ht
      exact (call_frame api W conv t c).2.2.2.1 ht
    · simp [Encoder.ctor_data]
  · intro symbols symbol_size
    have h := calls_induction api W conv
      (fun t => t.state = .INIT ∧ t.interleaver = none ∧ t.precomputed.rows = 0)
      (fun t c ht => by
        obtain ⟨_, _, hstate, _, _, hinit⟩ := call_frame api W conv t c
        obtain ⟨hi, hp⟩ := hinit ht.1
        refine ⟨?_, by rw [hi]; exact ht.2.1, by rw [hp]; exact ht.2.2⟩
        rcases hstate with h | ⟨h, _⟩
        · rw [h]; exact ht.1
        · rw [ht.1] at h; cases h)
      cs (Encoder.ctor_symbols api symbols symbol_size) ⟨rfl, rfl, rfl⟩
    exact h.2

/-- A session with an empty buffer that is in `INIT` or has both geometry members 0 gets
nothing from `add_data`. -/
theorem add_data_no_room {E : Type} (W : Nat) (conv : Nat → Nat) (s : Encoder E)
    (range : List Nat) (hdata : s.data = [])
    (hgeo : s.state = .INIT ∨ (s._symbols = 0 ∧ s._symbol_size = 0)) :
    (s.add_data W conv range).1 = 0 ∧ (s.add_data W conv range).2.data = [] := by
  by_cases hst : s.state = .NEED_DATA
  · rcases hgeo with h | ⟨h1, h2⟩
    · rw [hst] at h; cases h
    · have hc : capacity s._symbols s._symbol_size = 0 := by rw [h1, h2]; rfl
      obtain ⟨e1, e2⟩ := add_data_loop_no_room W conv (List.range range.length) s.data 0 s.state
      simp only [Encoder.add_data, hst, hc, ne_eq, not_true_eq_false, if_false]
      rw [hst] at e1 e2
      exact ⟨e2, by rw [e1, hdata]⟩
  · simp [Encoder.add_data, hst, hdata]

/-- C18. For every session reached from either constructor through any sequence of
`add_data`, `compute_sync` and `encode` calls, the ingestion buffer is empty, and
`add_data` returns 0 for every input range and leaves the buffer empty. -/
theorem reachable_add_data_returns_zero {E : Type} (api : Raw_Encoder E) (W : Nat)
    (conv : Nat → Nat) (cs : List Call) (range : List Nat) :
    (∀ (symbols symbol_size : Nat),
        ((Encoder.ctor_symbols api symbols symbol_size).calls api W conv cs).data = []
          ∧ (((Encoder.ctor_symbols api symbols symbol_size).calls api W conv cs).add_data
              W conv range).1 = 0
          ∧ (((Encoder.ctor_symbols api symbols symbol_size).calls api W conv cs).add_data
              W conv range).2.data = [])
      ∧ (∀ (input : List Nat) (symbol_size garbage : Nat),
        ((Encoder.ctor_data api input symbol_size garbage).calls api W conv cs).data = []
          ∧ (((Encoder.ctor_data api input symbol_size garbage).calls api W conv cs).add_data
              W conv range).1 = 0
          ∧ (((Encoder.ctor_data api input symbol_size garbage).calls api W conv cs).add_data
              W conv range).2.data = []) := by
  have keep : ∀ (t : Encoder E) (c : Call),
      (t.data = [] ∧ (t.state = .INIT ∨ (t._symbols = 0 ∧ t._symbol_size = 0))) →
      ((t.call api W conv c).data = []
        ∧ ((t.call api W conv c).state = .INIT
          ∨ ((t.call api W conv c)._symbols = 0 ∧ (t.call api W conv c)._symbol_size = 0))) := by
    intro t c ⟨hd, hg⟩
    obtain ⟨h1, h2, hstate, _, hdata, _⟩ := call_frame api W conv t c
    constructor
    · cases c with
      | add_data r => exact (add_data_no_room W conv t r hd hg).2
      | compute_sync => rw [hdata (fun r h => by cases h)]; exact hd
      | encode o a b k => rw [hdata (fun r h => by cases h)]; exact hd
    · rcases hg with hi | hz
      · left
        rcases hstate with h | ⟨h, _⟩
        · rw [h]; exact hi
        · rw [hi] at h; cases h
      · right
        rw [h1, h2]; exact hz
  have fin : ∀ (t : Encoder E),
      (t.data = [] ∧ (t.state = .INIT ∨ (t._symbols = 0 ∧ t._symbol_size = 0))) →
      (t.calls api W conv cs).data = [] ∧ ((t.calls api W conv cs).add_data W conv range).1 = 0
        ∧ ((t.calls api W conv cs).add_data W conv range).2.data = [] := by
    intro t ht
    have h := calls_induction api W conv
      (fun u => u.data = [] ∧ (u.state = .INIT ∨ (u._symbols = 0 ∧ u._symbol_size = 0)))
      keep cs t ht
    exact ⟨h.1, add_data_no_room W conv _ range h.1 h.2⟩
  constructor
  · intro symbols symbol_size
    exact fin _ ⟨rfl, Or.inl rfl⟩
  · intro input symbol_size garbage
    exact fin _ ⟨rfl, Or.inr ⟨rfl, rfl⟩⟩

/-! ## Requests at the edges of the data -/

/-- A request that starts at or past the end of the data, with a starting symbol index
that fits 16 bits, `skip = 0` and the cursor inside a non-empty range, returns 0 and
leaves the buffer and the cursor as they were. -/
theorem decode_bytes_past_end (d : Decoder) (W : Nat) (out : List Nat)
    (start end_ from_byte : Nat) (hready : d.dec.is_ready = true)
    (hC0 : 0 < d.dec.symbols.cols) (hfrom : from_byte / d.dec.symbols.cols < 65536)
    (hpast : d.dec.symbols.rows * d.dec.symbols.cols ≤ from_byte)
    (hse : start < end_) (hs : start < out.length) :
    d.decode_bytes W out start end_ from_byte 0 = .ok ⟨0, out, start⟩ := by
  have hget : (if start < end_ then out.get? start else none)
      = some (out.get ⟨start, hs⟩) := by
    rw [if_pos hse, List.get?_eq_get hs]
  have hesi : (from_byte / d.dec.symbols.cols) % 65536 = from_byte / d.dec.symbols.cols :=
    Nat.mod_eq_of_lt hfrom
  have hrow : d.dec.symbols.rows ≤ from_byte / d.dec.symbols.cols :=
    (Nat.le_div_iff_mul_le hC0).mpr hpast
  simp only [Decoder.decode_bytes, hready, Bool.not_true, Bool.false_eq_true, if_false,
    Nat.ne_of_gt hC0, hget, hesi]
  rw [decode_loop_leave d.dec.symbols W start end_ _ _ (by simp; omega)]
  simp

/-- Every matrix coefficient read by the loop of `decode_bytes`, started on a column of
the matrix, lies inside the matrix. -/
theorem decode_reads_in_matrix (m : DenseMtx) (W start end_ : Nat) :
    ∀ (fuel : Nat) (s : Cursor), s.byte < m.cols →
      ∀ p ∈ decode_reads m W start end_ fuel s, p.1 < m.rows ∧ p.2 < m.cols := by
  intro fuel
  induction fuel with
  | zero => intro s _ p hp; simp [decode_reads] at hp
  | succ fuel ih =>
    intro s hb p hp
    by_cases hc : start ≠ end_ ∧ s.esi < m.rows
    · rw [decode_reads, if_pos hc] at hp
      rcases List.mem_cons.mp hp with h | h
      · subst h; exact ⟨hc.2, hb⟩
      · apply ih (decode_step m W start s) _ p h
        rw [decode_step_byte]
        have hle : (s.byte + 1) % 65536 ≤ s.byte + 1 := Nat.mod_le _ _
        split_ifs with hw
        · omega
        · omega
    · rw [decode_reads, if_neg hc] at hp
      simp at hp

/-- The matrix reads of a `decode_bytes` call, whatever `from_byte`, `skip` and the range
are, lie inside a matrix with at least one column. -/
theorem decode_bytes_reads_in_matrix (d : Decoder) (W start end_ from_byte skip : Nat)
    (out : List Nat) (element fuel : Nat) (hC0 : 0 < d.dec.symbols.cols) :
    ∀ p ∈ decode_reads d.dec.symbols W start end_ fuel
        ⟨(from_byte / d.dec.symbols.cols) % 65536, (from_byte % d.dec.symbols.cols) % 65536,
          skip, element, 0, out⟩,
      p.1 < d.dec.symbols.rows ∧ p.2 < d.dec.symbols.cols :=
  decode_reads_in_matrix d.dec.symbols W start end_ fuel _
    (Nat.lt_of_le_of_lt (Nat.mod_le _ _) (Nat.mod_lt _ hC0))

/-- Two runs of `decode_bytes` that differ only in the buffer they are given return the
same count, under the conditions of `decode_bytes_ready_result`. -/
theorem decode_bytes_count_same (d : Decoder) (W : Nat) (out1 out2 : List Nat)
    (start end_ from_byte skip : Nat) (hready : d.dec.is_ready = true)
    (hC0 : 0 < d.dec.symbols.cols) (hC : d.dec.symbols.cols < 65536)
    (hR : d.dec.symbols.rows < 65536) (hfrom : from_byte / d.dec.symbols.cols < 65536)
    (hW : skip < W) (hse : start < end_) (hs1 : start < out1.length)
    (hs2 : start < out2.length) :
    ∃ r1 r2, d.decode_bytes W out1 start end_ from_byte skip = .ok r1
      ∧ d.decode_bytes W out2 start end_ from_byte skip = .ok r2
      ∧ r1.count = r2.count := by
  obtain ⟨v1, h1⟩ := decode_bytes_ready_result d W out1 start end_ from_byte skip hready hC0
    hC hR hfrom hW hse hs1
  obtain ⟨v2, h2⟩ := decode_bytes_ready_result d W out2 start end_ from_byte skip hready hC0
    hC hR hfrom hW hse hs2
  exact ⟨_, _, h1, h2, rfl⟩

/-- C17 (code bug). Over the 1 x 1 matrix holding the byte 5, a request at
`from_byte = 65536`, far past the single byte of data, returns 1 and writes 5: the
starting symbol index `65536 / 1` is kept in a `uint16_t`, where it is 0, a row of the
matrix. -/
theorem decode_bytes_wraps_start_index :
    dec_1x1.dec.symbols.rows * dec_1x1.dec.symbols.cols ≤ 65536
      ∧ dec_1x1.decode_bytes 1 [0] 0 1 65536 0 = .ok ⟨1, [5], 0⟩ := by
  decide

/-- C19 (code bug). Two runs over the same decoder (the 1 x 1 matrix holding 5), with the
same `from_byte = 0`, `skip = 0` and a range of one one-byte element, return the same
count but leave 5 where the element held 0 and 12 where it held 7: the accumulator starts
from the element under the cursor. -/
theorem decode_bytes_depends_on_old_content :
    dec_1x1.decode_bytes 1 [0] 0 1 0 0 = .ok ⟨1, [5], 0⟩
      ∧ dec_1x1.decode_bytes 1 [7] 0 1 0 0 = .ok ⟨1, [12], 0⟩ := by
  decide

/-- C20 (code bug). On an empty output range, `start == end`, `decode_bytes` reads the
element under the cursor before it tests the range: over an empty buffer, and at the end
position 1 of a range inside a buffer of two elements, the read falls outside
`[start, end)`. -/
theorem decode_bytes_reads_empty_range :
    dec_1x1.decode_bytes 1 [] 0 0 0 0 = .error .out_of_range
      ∧ dec_4x8.decode_bytes 1 [9, 9] 1 1 0 0 = .error .out_of_range := by
  decide

end RaptorQ
